import Mathlib

/-!
Verification of the `concurrent-hashmap` crate (`src/lib.rs`), a thread-safe
in-memory key-value store.

The Rust structure is

  pub struct Library<K, V> {
      internal_data: ArcCell<LibraryStore<K, V>>,   -- LibraryStore = HashMap<K, Arc<ArcCell<V>>>
      insert_mutex: Mutex<()>,
  }

We embed the sequential semantics of the library with explicit heaps, so that
pointer identity (of `Arc<V>` value handles and of `Arc<ArcCell<V>>` value
cells) is expressible:

* `valHeap : List V` models the set of `Arc<V>` allocations.  An `Arc<V>` is
  immutable once allocated, so this heap is only ever appended to; a *handle*
  (the `Arc<V>` that `get` returns) is an index into `valHeap`.
* `cellHeap : List Nat` models the `ArcCell<V>` allocations.  Cell `c`
  currently holds the `Arc<V>` at index `cellHeap[c]`; `ArcCell::set`
  allocates a fresh `Arc<V>` and atomically swaps the stored index.
* `internal_data : List (K × Nat)` models the current published
  `HashMap<K, Arc<ArcCell<V>>>` snapshot: an association list (keys unique)
  from key to cell index.
* `poisoned : Bool` models the poison state of `insert_mutex`: `lock()`
  returns `Err` when a previous holder panicked, and the source calls
  `.unwrap()` on it, so a poisoned lock makes the slow path panic.

A panic is modelled by `Option`: `Library.insert` returns `none` when the
call panics (lock poisoning), and `some` of the new store state otherwise.
-/

/-- Sequential model of the state reachable through a `Library<K, V>` value,
with the two reference-counted heaps made explicit. -/
structure Library (K V : Type) where
  valHeap : List V
  cellHeap : List Nat
  internal_data : List (K × Nat)
  poisoned : Bool
deriving DecidableEq

variable {K V : Type} [DecidableEq K]

/-- `HashMap::get` on the association-list model of the snapshot: the cell
index bound to `k`, if any.  Keys are unique, so the order of traversal is
irrelevant. -/
def lookupKey (m : List (K × Nat)) (k : K) : Option Nat :=
  match m with
  | [] => none
  | (k', c) :: rest => if k' = k then some c else lookupKey rest k

/-- `HashMap::insert` on the association-list model: bind `k` to cell `c`,
replacing an existing binding of `k` if present. -/
def insertAssoc (m : List (K × Nat)) (k : K) (c : Nat) : List (K × Nat) :=
  match m with
  | [] => [(k, c)]
  | (k', c') :: rest =>
    if k' = k then (k, c) :: rest else (k', c') :: insertAssoc rest k c

/-- `Library::default()`: `ArcCell::new(HashMap::new().into())` plus a fresh
(unpoisoned) mutex.  Both heaps start empty. -/
def Library.default : Library K V :=
  { valHeap := [], cellHeap := [], internal_data := [], poisoned := false }

/-- `Library::new()`, which just delegates to `Self::default()`. -/
def Library.new : Library K V :=
  Library.default

/-- `Library::with_capacity(capacity)`: `HashMap::with_capacity(capacity)` is
an empty map (capacity only pre-sizes the allocation, which is not part of the
logical state), so the resulting store is logically empty as well. -/
def Library.with_capacity (_capacity : Nat) : Library K V :=
  { valHeap := [], cellHeap := [], internal_data := [], poisoned := false }

/-- `Library::get`: load the current snapshot (`self.internal_data()`), look
up the key, and read the `ArcCell` (`.map(|el| el.get())`).  The result is a
handle — an index into `valHeap`, standing for the returned `Arc<V>`. -/
def Library.get (s : Library K V) (key : K) : Option Nat :=
  (lookupKey s.internal_data key).bind fun cell => s.cellHeap[cell]?

/-- Dereference a handle (an `Arc<V>`): the value it keeps alive.  Immutable
allocations never change, so this depends only on `valHeap`. -/
def readHandle (s : Library K V) (h : Nat) : Option V :=
  s.valHeap[h]?

/-- The value observed by `lib.get(key)`: dereference the returned handle. -/
def Library.getVal (s : Library K V) (key : K) : Option V :=
  (Library.get s key).bind fun h => s.valHeap[h]?

/-- `arccell.set(value.into())` on cell index `arccell`: allocate a fresh
`Arc<V>` holding `value` and atomically swap it into the cell. -/
def cellSet (s : Library K V) (arccell : Nat) (value : V) : Library K V :=
  { s with
    valHeap := s.valHeap ++ [value],
    cellHeap := s.cellHeap.set arccell s.valHeap.length }

/-- `Library::insert`, following the source line by line:

1. load the snapshot and short-circuit through `arccell.set` if the key is
   already present (fast path, never touches the mutex);
2. otherwise `self.insert_mutex.lock().unwrap()` — this panics (`none`) when
   the mutex is poisoned;
3. re-load the snapshot and re-check the key (an exact copy of the first
   `if let`; in this sequential model the state is unchanged);
4. otherwise clone the map, insert `ArcCell::new(value.into())` under the new
   key, and publish the clone with `self.internal_data.set`. -/
def Library.insert (s : Library K V) (key : K) (value : V) :
    Option (Library K V) :=
  match lookupKey s.internal_data key with
  | some arccell => some (cellSet s arccell value)
  | none =>
    if s.poisoned then none
    else
      match lookupKey s.internal_data key with
      | some arccell => some (cellSet s arccell value)
      | none =>
        some { s with
          valHeap := s.valHeap ++ [value],
          cellHeap := s.cellHeap ++ [s.valHeap.length],
          internal_data := insertAssoc s.internal_data key s.cellHeap.length }

/-- Run a sequence of inserts in order.  A panicking insert (poisoned lock)
terminates the run: the remaining operations are not executed. -/
def execInserts (s : Library K V) : List (K × V) → Library K V
  | [] => s
  | (k, v) :: rest =>
    match Library.insert s k v with
    | some s' => execInserts s' rest
    | none => s

/-- One operation of the public API, for whole-trace observational claims. -/
inductive Op (K V : Type) where
  | get (key : K)
  | insert (key : K) (value : V)
deriving DecidableEq

/-- Run a sequence of operations, collecting the value observed by each `get`.
A panicking insert terminates the run. -/
def runOps (s : Library K V) : List (Op K V) → List (Option V)
  | [] => []
  | Op.get k :: rest => Library.getVal s k :: runOps s rest
  | Op.insert k v :: rest =>
    match Library.insert s k v with
    | some s' => runOps s' rest
    | none => []

/-- The value of the last insert on key `k` in the sequence, if any. -/
def lastValue (l : List (K × V)) (k : K) : Option V :=
  match l with
  | [] => none
  | (k', v) :: rest =>
    match lastValue rest k with
    | some w => some w
    | none => if k' = k then some v else none

/-- Structural well-formedness of a store state, maintained by the API:
every cell index in the snapshot is allocated; every cell holds an allocated
`Arc<V>`; the snapshot's keys are unique (it models a `HashMap`); distinct
keys own distinct cells (each slow-path insert allocates a fresh cell). -/
def WF (s : Library K V) : Prop :=
  (∀ p ∈ s.internal_data, p.2 < s.cellHeap.length) ∧
  (∀ c ∈ s.cellHeap, c < s.valHeap.length) ∧
  (s.internal_data.map Prod.fst).Nodup ∧
  (s.internal_data.map Prod.snd).Nodup

instance (s : Library K V) : Decidable (WF s) := by
  unfold WF
  infer_instance

/-! Basic facts about the association-list model of the `HashMap`. -/

lemma lookupKey_eq_none_iff {m : List (K × Nat)} {k : K} :
    lookupKey m k = none ↔ k ∉ m.map Prod.fst := by
  induction m with
  | nil => simp [lookupKey]
  | cons p rest ih =>
    obtain ⟨k', c⟩ := p
    by_cases hk : k' = k
    · subst hk
      simp [lookupKey]
    · simp only [lookupKey, if_neg hk, ih, List.map_cons, List.mem_cons]
      constructor
      · intro hnot hor
        rcases hor with h1 | h2
        · exact hk h1.symm
        · exact hnot h2
      · intro hnot h2
        exact hnot (Or.inr h2)

lemma lookupKey_mem {m : List (K × Nat)} {k : K} {c : Nat}
    (h : lookupKey m k = some c) : (k, c) ∈ m := by
  induction m with
  | nil => simp [lookupKey] at h
  | cons p rest ih =>
    obtain ⟨k', c'⟩ := p
    by_cases hk : k' = k
    · subst hk
      simp [lookupKey] at h
      simp [h]
    · simp [lookupKey, hk] at h
      exact List.mem_cons_of_mem _ (ih h)

lemma insertAssoc_of_lookup_none {m : List (K × Nat)} {k : K} (c : Nat)
    (h : lookupKey m k = none) : insertAssoc m k c = m ++ [(k, c)] := by
  induction m with
  | nil => simp [insertAssoc]
  | cons p rest ih =>
    obtain ⟨k', c'⟩ := p
    by_cases hk : k' = k
    · simp [lookupKey, hk] at h
    · simp [lookupKey, hk] at h
      simp [insertAssoc, hk, ih h]

lemma lookupKey_snoc (m : List (K × Nat)) (k k' : K) (c : Nat) :
    lookupKey (m ++ [(k, c)]) k' =
      match lookupKey m k' with
      | some d => some d
      | none => if k = k' then some c else none := by
  induction m with
  | nil => simp [lookupKey]
  | cons p rest ih =>
    obtain ⟨k₀, c₀⟩ := p
    by_cases hk : k₀ = k' <;> simp [lookupKey, hk, ih]

/-- Distinct keys of a well-formed store own distinct cells. -/
lemma cell_ne_of_key_ne {s : Library K V} {k k' : K} {c c' : Nat}
    (hwf : WF s) (h : lookupKey s.internal_data k = some c)
    (h' : lookupKey s.internal_data k' = some c') (hkk : k ≠ k') : c ≠ c' := by
  intro hcc
  subst hcc
  have hm := lookupKey_mem h
  have hm' := lookupKey_mem h'
  have := List.inj_on_of_nodup_map hwf.2.2.2 hm hm' rfl
  exact hkk (congrArg Prod.fst this)

/-! Case analysis of `Library.insert`.  The re-check after lock acquisition
coincides with the first check in the sequential model, so the three
behaviours are: fast path, poisoned panic, slow path. -/

lemma insert_eq_fast {s : Library K V} {k : K} {c : Nat} (v : V)
    (h : lookupKey s.internal_data k = some c) :
    Library.insert s k v = some (cellSet s c v) := by
  simp [Library.insert, h]

lemma insert_eq_panic {s : Library K V} {k : K} (v : V)
    (h : lookupKey s.internal_data k = none) (hp : s.poisoned = true) :
    Library.insert s k v = none := by
  simp [Library.insert, h, hp]

lemma insert_eq_slow {s : Library K V} {k : K} (v : V)
    (h : lookupKey s.internal_data k = none) (hp : s.poisoned = false) :
    Library.insert s k v =
      some { s with
        valHeap := s.valHeap ++ [v],
        cellHeap := s.cellHeap ++ [s.valHeap.length],
        internal_data := s.internal_data ++ [(k, s.cellHeap.length)] } := by
  simp [Library.insert, h, hp, insertAssoc_of_lookup_none _ h]

/-- A completed insert appends exactly one `Arc<V>` allocation, holding the
inserted value; existing allocations are untouched. -/
lemma valHeap_insert {s s' : Library K V} {k : K} {v : V}
    (h : Library.insert s k v = some s') :
    s'.valHeap = s.valHeap ++ [v] := by
  rcases hc : lookupKey s.internal_data k with _ | c
  · rcases hp : s.poisoned with _ | _
    · rw [insert_eq_slow v hc hp] at h
      cases h
      rfl
    · rw [insert_eq_panic v hc hp] at h
      cases h
  · rw [insert_eq_fast v hc] at h
    cases h
    rfl

/-- Inserting never poisons (or un-poisons) the mutex. -/
lemma poisoned_insert {s s' : Library K V} {k : K} {v : V}
    (h : Library.insert s k v = some s') :
    s'.poisoned = s.poisoned := by
  rcases hc : lookupKey s.internal_data k with _ | c
  · rcases hp : s.poisoned with _ | _
    · rw [insert_eq_slow v hc hp] at h
      cases h
      exact hp
    · rw [insert_eq_panic v hc hp] at h
      cases h
  · rw [insert_eq_fast v hc] at h
    cases h
    rfl

/-- An insert against an unpoisoned mutex always completes. -/
lemma insert_isSome {s : Library K V} (k : K) (v : V)
    (hp : s.poisoned = false) :
    (Library.insert s k v).isSome := by
  rcases hc : lookupKey s.internal_data k with _ | c
  · rw [insert_eq_slow v hc hp]
    rfl
  · rw [insert_eq_fast v hc]
    rfl

/-- Well-formedness is preserved by every completed insert. -/
lemma WF_insert {s s' : Library K V} {k : K} {v : V}
    (hwf : WF s) (h : Library.insert s k v = some s') : WF s' := by
  obtain ⟨h1, h2, h3, h4⟩ := hwf
  rcases hc : lookupKey s.internal_data k with _ | c
  · rcases hp : s.poisoned with _ | _
    · rw [insert_eq_slow v hc hp] at h
      cases h
      refine ⟨?_, ?_, ?_, ?_⟩
      · intro p hp'
        simp only [List.length_append, List.length_cons, List.length_nil]
        rcases List.mem_append.1 hp' with hin | hnew
        · exact Nat.lt_succ_of_lt (h1 p hin)
        · simp at hnew
          simp [hnew]
      · intro d hd
        simp only [List.length_append, List.length_cons, List.length_nil]
        rcases List.mem_append.1 hd with hin | hnew
        · exact Nat.lt_succ_of_lt (h2 d hin)
        · simp at hnew
          simp [hnew]
      · simp only [List.map_append, List.map_cons, List.map_nil]
        rw [List.nodup_append]
        refine ⟨h3, List.nodup_singleton _, ?_⟩
        intro a ha hb
        simp at hb
        subst hb
        exact (lookupKey_eq_none_iff.1 hc) ha
      · simp only [List.map_append, List.map_cons, List.map_nil]
        rw [List.nodup_append]
        refine ⟨h4, List.nodup_singleton _, ?_⟩
        intro a ha hb
        simp at hb
        subst hb
        rcases List.mem_map.1 ha with ⟨p, hpmem, hpsnd⟩
        have := h1 p hpmem
        omega
    · rw [insert_eq_panic v hc hp] at h
      cases h
  · rw [insert_eq_fast v hc] at h
    cases h
    refine ⟨?_, ?_, ?_, ?_⟩
    · intro p hp'
      simpa [cellSet] using h1 p hp'
    · intro d hd
      simp only [cellSet, List.length_append, List.length_cons,
        List.length_nil]
      rcases List.mem_or_eq_of_mem_set hd with hin | hnew
      · exact Nat.lt_succ_of_lt (h2 d hin)
      · simp [hnew]
    · exact h3
    · exact h4

/-- A handle returned by `get` on a well-formed store is an allocated
`Arc<V>`. -/
lemma get_handle_lt {s : Library K V} {k : K} {h : Nat}
    (hwf : WF s) (hg : Library.get s k = some h) : h < s.valHeap.length := by
  unfold Library.get at hg
  rcases hc : lookupKey s.internal_data k with _ | c
  · rw [hc] at hg
    cases hg
  · rw [hc] at hg
    simp only [Option.some_bind] at hg
    exact hwf.2.1 h (List.getElem?_mem hg)

/-- After a completed `insert(k, v)`, `get(k)` observes `v`. -/
lemma getVal_insert_self {s s' : Library K V} {k : K} {v : V}
    (hwf : WF s) (h : Library.insert s k v = some s') :
    Library.getVal s' k = some v := by
  rcases hc : lookupKey s.internal_data k with _ | c
  · rcases hp : s.poisoned with _ | _
    · rw [insert_eq_slow v hc hp] at h
      cases h
      simp [Library.getVal, Library.get, lookupKey_snoc, hc,
        List.getElem?_concat_length]
    · rw [insert_eq_panic v hc hp] at h
      cases h
  · rw [insert_eq_fast v hc] at h
    cases h
    have hmem := lookupKey_mem hc
    have hclt : c < s.cellHeap.length := hwf.1 _ hmem
    simp [Library.getVal, Library.get, cellSet, hc,
      List.getElem?_set_eq_of_lt _ hclt, List.getElem?_concat_length]

/-- A completed insert leaves the binding of every other key untouched:
`get` returns the *same handle* for every key other than the inserted one,
and every previously bound key keeps its cell. -/
lemma get_insert_frame {s s' : Library K V} {k k' : K} {v : V}
    (hwf : WF s) (h : Library.insert s k v = some s') (hne : k' ≠ k) :
    Library.get s' k' = Library.get s k' := by
  rcases hc : lookupKey s.internal_data k with _ | c
  · rcases hp : s.poisoned with _ | _
    · rw [insert_eq_slow v hc hp] at h
      cases h
      simp only [Library.get, lookupKey_snoc]
      rcases hc' : lookupKey s.internal_data k' with _ | c'
      · simp [if_neg (Ne.symm hne)]
      · have hclt : c' < s.cellHeap.length := hwf.1 _ (lookupKey_mem hc')
        simp [List.getElem?_append_left hclt]
    · rw [insert_eq_panic v hc hp] at h
      cases h
  · rw [insert_eq_fast v hc] at h
    cases h
    simp only [Library.get, cellSet]
    rcases hc' : lookupKey s.internal_data k' with _ | c'
    · rfl
    · have hcc : c ≠ c' := cell_ne_of_key_ne hwf hc hc' (Ne.symm hne)
      simp [List.getElem?_set_ne hcc]

/-- A completed insert preserves the cell identity bound to every
previously present key — including the inserted key itself. -/
lemma lookup_insert_preserve {s s' : Library K V} {k k' : K} {v : V} {c : Nat}
    (h : Library.insert s k v = some s')
    (hc' : lookupKey s.internal_data k' = some c) :
    lookupKey s'.internal_data k' = some c := by
  rcases hc : lookupKey s.internal_data k with _ | d
  · rcases hp : s.poisoned with _ | _
    · rw [insert_eq_slow v hc hp] at h
      cases h
      simp [lookupKey_snoc, hc']
    · rw [insert_eq_panic v hc hp] at h
      cases h
  · rw [insert_eq_fast v hc] at h
    cases h
    exact hc'

/-- The value observed for any other key is also unchanged. -/
lemma getVal_insert_frame {s s' : Library K V} {k k' : K} {v : V}
    (hwf : WF s) (h : Library.insert s k v = some s') (hne : k' ≠ k) :
    Library.getVal s' k' = Library.getVal s k' := by
  have hget := get_insert_frame hwf h hne
  have hval := valHeap_insert h
  unfold Library.getVal
  rw [hget]
  rcases hg : Library.get s k' with _ | hdl
  · rfl
  · have hlt : hdl < s.valHeap.length := get_handle_lt hwf hg
    simp [hval, List.getElem?_append_left hlt]

/-! Lemmas about sequences of inserts. -/

lemma WF_execInserts {s : Library K V} (hwf : WF s) (l : List (K × V)) :
    WF (execInserts s l) := by
  induction l generalizing s with
  | nil => exact hwf
  | cons p rest ih =>
    obtain ⟨k, v⟩ := p
    rcases h : Library.insert s k v with _ | s'
    · simpa [execInserts, h] using hwf
    · simpa [execInserts, h] using ih (WF_insert hwf h)

lemma poisoned_execInserts (s : Library K V) (l : List (K × V)) :
    (execInserts s l).poisoned = s.poisoned := by
  induction l generalizing s with
  | nil => rfl
  | cons p rest ih =>
    obtain ⟨k, v⟩ := p
    rcases h : Library.insert s k v with _ | s'
    · simp [execInserts, h]
    · simp only [execInserts, h]
      rw [ih s', poisoned_insert h]

/-- A run of inserts only ever appends to the `Arc<V>` heap. -/
lemma valHeap_execInserts (s : Library K V) (l : List (K × V)) :
    ∃ t, (execInserts s l).valHeap = s.valHeap ++ t := by
  induction l generalizing s with
  | nil => exact ⟨[], by simp [execInserts]⟩
  | cons p rest ih =>
    obtain ⟨k, v⟩ := p
    rcases h : Library.insert s k v with _ | s'
    · exact ⟨[], by simp [execInserts, h]⟩
    · obtain ⟨t, ht⟩ := ih s'
      refine ⟨[v] ++ t, ?_⟩
      simp [execInserts, h, ht, valHeap_insert h]

/-- Functional characterization of a run of inserts started on an unpoisoned
well-formed store: each key observes the value of its last insert in the
sequence, or its prior value if the sequence never touches it. -/
lemma getVal_execInserts {s : Library K V} (hwf : WF s)
    (hp : s.poisoned = false) (l : List (K × V)) (k : K) :
    Library.getVal (execInserts s l) k =
      match lastValue l k with
      | some v => some v
      | none => Library.getVal s k := by
  induction l generalizing s with
  | nil => simp [execInserts, lastValue]
  | cons p rest ih =>
    obtain ⟨k', v⟩ := p
    rcases h : Library.insert s k' v with _ | s'
    · have := insert_isSome (s := s) k' v hp
      rw [h] at this
      cases this
    · have hwf' := WF_insert hwf h
      have hp' : s'.poisoned = false := by
        rw [poisoned_insert h]
        exact hp
      simp only [execInserts, h, lastValue]
      rw [ih hwf' hp']
      rcases lastValue rest k with _ | w
      · by_cases hk : k' = k
        · subst hk
          simp [getVal_insert_self hwf h]
        · simp [if_neg hk, getVal_insert_frame hwf h (Ne.symm hk)]
      · rfl

lemma lastValue_eq_none_of_not_mem {l : List (K × V)} {k : K}
    (h : k ∉ l.map Prod.fst) : lastValue l k = none := by
  induction l with
  | nil => rfl
  | cons p rest ih =>
    obtain ⟨k', v⟩ := p
    simp only [List.map_cons, List.mem_cons] at h
    push_neg at h
    simp [lastValue, ih h.2, if_neg (Ne.symm h.1)]

lemma lastValue_of_nodup_mem {l : List (K × V)} {k : K} {v : V}
    (hnd : (l.map Prod.fst).Nodup) (hmem : (k, v) ∈ l) :
    lastValue l k = some v := by
  induction l with
  | nil => cases hmem
  | cons p rest ih =>
    obtain ⟨k', v'⟩ := p
    simp only [List.map_cons, List.nodup_cons] at hnd
    rcases List.mem_cons.1 hmem with heq | htail
    · cases heq
      have : k ∉ rest.map Prod.fst := hnd.1
      simp [lastValue, lastValue_eq_none_of_not_mem this]
    · have hk : k' ≠ k := by
        intro he
        subst he
        exact hnd.1 (List.mem_map.2 ⟨(k', v), htail, rfl⟩)
      simp [lastValue, ih hnd.2 htail]

lemma WF_default : WF (Library.default : Library K V) := by
  refine ⟨?_, ?_, ?_, ?_⟩ <;> simp [Library.default, WF]

/-- After a completed `insert(k, v)`, the key `k` is bound to some cell. -/
lemma lookup_insert_self {s s' : Library K V} {k : K} {v : V}
    (h : Library.insert s k v = some s') :
    ∃ c, lookupKey s'.internal_data k = some c := by
  rcases hc : lookupKey s.internal_data k with _ | c
  · rcases hp : s.poisoned with _ | _
    · rw [insert_eq_slow v hc hp] at h
      cases h
      exact ⟨s.cellHeap.length, by simp [lookupKey_snoc, hc]⟩
    · rw [insert_eq_panic v hc hp] at h
      cases h
  · rw [insert_eq_fast v hc] at h
    cases h
    exact ⟨c, hc⟩

/-! The claims. -/

/-- Claim C1: for every store, key `k`, and value `v`, after
`insert(store, k, v)` completes (sequentially, with no racing insert on `k`),
a subsequent `get(store, k)` returns a handle to `v`. -/
theorem get_after_insert (s s' : Library K V) (k : K) (v : V)
    (hwf : WF s) (h : Library.insert s k v = some s') :
    Library.getVal s' k = some v :=
  getVal_insert_self hwf h

theorem get_after_insert_witness :
    Library.getVal (⟨[5], [0], [(0, 0)], false⟩ : Library Nat Nat) 0 =
      some 5 :=
  get_after_insert Library.default ⟨[5], [0], [(0, 0)], false⟩ 0 5
    (by decide) (by decide)

/-- Claim C2: if `insert(store, k, v₁)` completes before
`insert(store, k, v₂)` begins (sequential), then `get(store, k)` after both
returns `v₂`: the later insert overwrites the earlier one. -/
theorem last_writer_wins (s s₁ s₂ : Library K V) (k : K) (v₁ v₂ : V)
    (hwf : WF s) (h₁ : Library.insert s k v₁ = some s₁)
    (h₂ : Library.insert s₁ k v₂ = some s₂) :
    Library.getVal s₂ k = some v₂ :=
  getVal_insert_self (WF_insert hwf h₁) h₂

theorem last_writer_wins_witness :
    Library.getVal (⟨[5, 7], [1], [(0, 0)], false⟩ : Library Nat Nat) 0 =
      some 7 :=
  last_writer_wins Library.default ⟨[5], [0], [(0, 0)], false⟩
    ⟨[5, 7], [1], [(0, 0)], false⟩ 0 5 7 (by decide) (by decide) (by decide)

/-- Claim C3: `insert` fails (panics) if and only if the key is absent from
the current mapping and the structural mutex is poisoned; `insert` on an
already-present key never fails, even when the mutex is poisoned, because the
fast path never acquires the lock.  The panic is modelled as the `none`
result: the calling operation terminates without publishing anything. -/
theorem insert_panics_iff (s : Library K V) (k : K) (v : V) :
    (Library.insert s k v = none ↔
      lookupKey s.internal_data k = none ∧ s.poisoned = true) ∧
    (∀ c, lookupKey s.internal_data k = some c →
      (Library.insert s k v).isSome) := by
  constructor
  · constructor
    · intro h
      rcases hc : lookupKey s.internal_data k with _ | c
      · rcases hp : s.poisoned with _ | _
        · rw [insert_eq_slow v hc hp] at h
          cases h
        · exact ⟨rfl, rfl⟩
      · rw [insert_eq_fast v hc] at h
        cases h
    · rintro ⟨hc, hp⟩
      exact insert_eq_panic v hc hp
  · intro c hc
    rw [insert_eq_fast v hc]
    rfl

theorem insert_panics_iff_witness :
    Library.insert (⟨[], [], [], true⟩ : Library Nat Nat) 0 5 = none ∧
    (Library.insert (⟨[5], [0], [(0, 0)], true⟩ : Library Nat Nat) 0 7).isSome :=
  ⟨(insert_panics_iff (⟨[], [], [], true⟩ : Library Nat Nat) 0 5).1.2
      ⟨rfl, rfl⟩,
    (insert_panics_iff (⟨[5], [0], [(0, 0)], true⟩ : Library Nat Nat) 0 7).2 0
      (by decide)⟩

/-- Claim C4: a completed insert never removes or alters other entries: for
every key `k' ≠ k`, `get` returns the very same handle before and after, with
the same observed value; and every key bound before the insert (including `k`
itself) is still bound afterwards, to the *same* value cell. -/
theorem insert_frame (s s' : Library K V) (k : K) (v : V)
    (hwf : WF s) (h : Library.insert s k v = some s') :
    (∀ k', k' ≠ k → Library.get s' k' = Library.get s k' ∧
      Library.getVal s' k' = Library.getVal s k') ∧
    (∀ k' c, lookupKey s.internal_data k' = some c →
      lookupKey s'.internal_data k' = some c) :=
  ⟨fun _ hne => ⟨get_insert_frame hwf h hne, getVal_insert_frame hwf h hne⟩,
    fun _ _ hc => lookup_insert_preserve h hc⟩

theorem insert_frame_witness :
    Library.get (⟨[5, 9], [0, 1], [(0, 0), (1, 1)], false⟩ : Library Nat Nat)
        0 = Library.get (⟨[5], [0], [(0, 0)], false⟩ : Library Nat Nat) 0 ∧
    Library.getVal
        (⟨[5, 9], [0, 1], [(0, 0), (1, 1)], false⟩ : Library Nat Nat) 0 =
      Library.getVal (⟨[5], [0], [(0, 0)], false⟩ : Library Nat Nat) 0 ∧
    lookupKey
        (⟨[5, 9], [0, 1], [(0, 0), (1, 1)], false⟩ :
          Library Nat Nat).internal_data 0 = some 0 := by
  have h := insert_frame (⟨[5], [0], [(0, 0)], false⟩ : Library Nat Nat)
    ⟨[5, 9], [0, 1], [(0, 0), (1, 1)], false⟩ 1 9 (by decide) (by decide)
  exact ⟨(h.1 0 (by decide)).1, (h.1 0 (by decide)).2, h.2 0 0 (by decide)⟩

/-- Claim C5: a handle returned by `get` is a stable historical read: the
value observed through it is unchanged by any later sequence of inserts,
whether they touch other keys or overwrite `k` itself. -/
theorem handle_stable (s : Library K V) (k : K) (hdl : Nat)
    (l : List (K × V)) (hwf : WF s) (hg : Library.get s k = some hdl) :
    readHandle (execInserts s l) hdl = readHandle s hdl := by
  obtain ⟨t, ht⟩ := valHeap_execInserts s l
  have hlt := get_handle_lt hwf hg
  simp [readHandle, ht, List.getElem?_append_left hlt]

theorem handle_stable_witness :
    readHandle
        (execInserts (⟨[5], [0], [(0, 0)], false⟩ : Library Nat Nat)
          [(0, 7), (1, 9)]) 0 =
      readHandle (⟨[5], [0], [(0, 0)], false⟩ : Library Nat Nat) 0 :=
  handle_stable ⟨[5], [0], [(0, 0)], false⟩ 0 0 [(0, 7), (1, 9)]
    (by decide) (by decide)

/-- Claim C6: inserting pairwise-distinct keys sequentially into a fresh
store makes every one of them retrievable with its own value, and this holds
for every permutation of the insertion order. -/
theorem distinct_inserts_retrievable (l l' : List (K × V))
    (hnd : (l.map Prod.fst).Nodup) (hperm : l.Perm l') :
    ∀ p ∈ l',
      Library.getVal (execInserts (Library.default : Library K V) l') p.1 =
        some p.2 := by
  intro p hp
  have hnd' : (l'.map Prod.fst).Nodup := ((hperm.map Prod.fst).nodup_iff).1 hnd
  rw [getVal_execInserts WF_default rfl l' p.1,
    lastValue_of_nodup_mem hnd' hp]

theorem distinct_inserts_retrievable_witness :
    Library.getVal
        (execInserts (Library.default : Library Nat Nat) [(1, 7), (0, 5)])
        0 = some 5 :=
  distinct_inserts_retrievable [(0, 5), (1, 7)] [(1, 7), (0, 5)]
    (by decide) (by decide) (0, 5) (by decide)

/-- Claim C7: for every key never inserted, `get` returns the absent result
`none` — an ordinary value, not an error — and in particular a freshly
created store returns `none` for every key. -/
theorem absent_before_insert (k : K) (l : List (K × V))
    (hnot : k ∉ l.map Prod.fst) :
    Library.getVal (execInserts (Library.default : Library K V) l) k = none ∧
    Library.getVal (Library.default : Library K V) k = none := by
  have h2 : Library.getVal (Library.default : Library K V) k = none := rfl
  refine ⟨?_, h2⟩
  rw [getVal_execInserts WF_default rfl l k,
    lastValue_eq_none_of_not_mem hnot, h2]

theorem absent_before_insert_witness :
    Library.getVal
        (execInserts (Library.default : Library Nat Nat) [(0, 5), (1, 7)])
        2 = none ∧
    Library.getVal (Library.default : Library Nat Nat) 2 = none :=
  absent_before_insert 2 [(0, 5), (1, 7)] (by decide)

/-- Claim C8: for every capacity `n` and every operation sequence, a store
built by `with_capacity n` produces exactly the same observation at every
`get` as a store built by `new` — the capacity hint only pre-sizes the
allocation and has no observable effect. -/
theorem with_capacity_equiv (n : Nat) (ops : List (Op K V)) :
    runOps (Library.with_capacity n : Library K V) ops =
      runOps (Library.new : Library K V) ops :=
  rfl

/-- Claim C10: `insert` is idempotent: a second identical `insert(k, v)`
always completes (it takes the fast path), changes no binding of the map, and
leaves every key observing the same value as after the first insert. -/
theorem insert_idempotent (s s₁ : Library K V) (k : K) (v : V)
    (hwf : WF s) (h₁ : Library.insert s k v = some s₁) :
    ∃ s₂, Library.insert s₁ k v = some s₂ ∧
      s₂.internal_data = s₁.internal_data ∧
      ∀ k', Library.getVal s₂ k' = Library.getVal s₁ k' := by
  obtain ⟨c, hc⟩ := lookup_insert_self h₁
  have hwf₁ := WF_insert hwf h₁
  refine ⟨cellSet s₁ c v, insert_eq_fast v hc, rfl, ?_⟩
  intro k'
  by_cases hk : k' = k
  · subst hk
    rw [getVal_insert_self hwf₁ (insert_eq_fast v hc),
      getVal_insert_self hwf h₁]
  · exact getVal_insert_frame hwf₁ (insert_eq_fast v hc) hk

theorem insert_idempotent_witness :
    Library.insert (⟨[5], [0], [(0, 0)], false⟩ : Library Nat Nat) 0 5 =
      some ⟨[5, 5], [1], [(0, 0)], false⟩ ∧
    Library.getVal (⟨[5, 5], [1], [(0, 0)], false⟩ : Library Nat Nat) 0 =
      Library.getVal (⟨[5], [0], [(0, 0)], false⟩ : Library Nat Nat) 0 := by
  obtain ⟨s₂, h1, h2, h3⟩ :=
    insert_idempotent (Library.default : Library Nat Nat)
      ⟨[5], [0], [(0, 0)], false⟩ 0 5 (by decide) (by decide)
  have hs : s₂ = ⟨[5, 5], [1], [(0, 0)], false⟩ :=
    Option.some.inj (h1.symm.trans (by decide))
  subst hs
  exact ⟨h1, h3 0⟩
